import Mathlib

/-!
Verification of the log relevance-filtering and chunk-orchestration engine of
JournalAnalyzerAI (src/app.py), shallowly embedded over `List Char` texts.
Python strings become `List Char`, Python ints become `Int`, and the pure core
functions `filter_lines_with_context` and `chunk_text_by_chars`, the synthesis
prompt assembly, and the post-click pipeline control flow are translated
directly from the source.
-/

set_option autoImplicit false

namespace App

/-- ASCII model of the whitespace class stripped by Python `str.strip()`
(space, tab, newline, carriage return, vertical tab, form feed). -/
def isPySpace (c : Char) : Bool :=
  c == ' ' || c == '\t' || c == '\n' || c == '\r' || c == '\x0b' || c == '\x0c'

/-- Python `text.strip()`: drop leading and trailing whitespace. -/
def pyStrip (s : List Char) : List Char :=
  ((s.dropWhile isPySpace).reverse.dropWhile isPySpace).reverse

/-- The comprehension `[text[i : i + n] for i in range(0, len(text), n)]`
realized recursively; `fuel = text.length` suffices whenever `0 < n`,
which is guaranteed by the guard in `chunk_text_by_chars`. -/
def chunksOfFuel (n : Nat) : Nat → List Char → List (List Char)
  | _, [] => []
  | 0, _ :: _ => []
  | fuel + 1, c :: cs => (c :: cs).take n :: chunksOfFuel n fuel ((c :: cs).drop n)

/-- `chunk_text_by_chars` from src/app.py: strip, return `[]` on empty,
return the whole text on non-positive `chunk_size`, else split into
`chunk_size`-character spans. -/
def chunk_text_by_chars (text : List Char) (chunk_size : Int) : List (List Char) :=
  if pyStrip text = [] then []
  else if chunk_size ≤ 0 then [pyStrip text]
  else chunksOfFuel chunk_size.toNat (pyStrip text).length (pyStrip text)

/-- A compiled regex atom. `re.escape` turns every character of a token into
a literal-character atom, so the patterns compiled by
`filter_lines_with_context` consist solely of such atoms. -/
inductive RAtom where
  | lit : Char → RAtom

/-- `re.escape(svc)`: the pattern denoting the token literally. -/
def reEscape (t : List Char) : List RAtom := t.map RAtom.lit

/-- Matching one atom against one character under `re.IGNORECASE`. -/
def atomMatches : RAtom → Char → Bool
  | .lit a, c => a.toLower == c.toLower

/-- The pattern matches at the start of the given character list. -/
def patMatchesAt : List RAtom → List Char → Bool
  | [], _ => true
  | _ :: _, [] => false
  | a :: ps, c :: cs => atomMatches a c && patMatchesAt ps cs

/-- `pattern.search(line)`: the pattern matches starting at some offset. -/
def reSearch (pat : List RAtom) (l : List Char) : Bool :=
  (List.range (l.length + 1)).any (fun i => patMatchesAt pat (l.drop i))

/-- `any(p.search(line) for p in patterns)` with
`patterns = [re.compile(re.escape(svc), re.IGNORECASE) for svc in target_services]`. -/
def lineHit (tokens : List (List Char)) (line : List Char) : Bool :=
  tokens.any (fun t => reSearch (reEscape t) line)

/-- The `hit_idxs` list built by `for i, line in enumerate(lines)`. -/
def hit_idxs (lines tokens : List (List Char)) : List Nat :=
  (List.range lines.length).filter (fun i => lineHit tokens (lines.getD i []))

/-- The `keep` set: for each hit `i`, add `range(start, end + 1)` with
`start = max(0, i - context)` and `end = min(len(lines) - 1, i + context)`;
`start ≥ 0` always, so the Python int interval is represented as a
`Finset.Ico` of naturals. -/
def keepSet (lines tokens : List (List Char)) (context : Int) : Finset Nat :=
  (hit_idxs lines tokens).foldl
    (fun s (i : Nat) => s ∪ Finset.Ico (max 0 ((i : Int) - context)).toNat
      ((min ((lines.length : Int) - 1) ((i : Int) + context) + 1).toNat)) ∅

/-- `kept_sorted = sorted(keep)`: since `keep ⊆ range(len(lines))` by
construction, the ascending enumeration of `keep` is the filtered index
range. -/
def kept_sorted (lines tokens : List (List Char)) (context : Int) : List Nat :=
  (List.range lines.length).filter (fun j => decide (j ∈ keepSet lines tokens context))

/-- Python `line.rstrip("\n")`: drop trailing newline characters. -/
def rstripNL (l : List Char) : List Char :=
  (l.reverse.dropWhile (fun c => c == '\n')).reverse

/-- The untruncated `filtered` list:
`[lines[i].rstrip("\n") for i in kept_sorted]`. -/
def filteredAll (lines tokens : List (List Char)) (context : Int) : List (List Char) :=
  (kept_sorted lines tokens context).map (fun i => rstripNL (lines.getD i []))

/-- Python slice `l[:m]` for an integer bound `m`. -/
def pyTake {α : Type} (m : Int) (l : List α) : List α :=
  if 0 ≤ m then l.take m.toNat else l.take (l.length - (-m).toNat)

/-- `filter_lines_with_context` from src/app.py: empty-token early return,
hit collection, context-window expansion into a deduplicating index set,
sorted mapping back to (newline-stripped) lines, and the
`if max_lines and len(filtered) > max_lines` head-truncation safeguard. -/
def filter_lines_with_context (lines tokens : List (List Char))
    (context max_lines : Int) : List (List Char) × Nat :=
  if tokens = [] then ([], 0)
  else
    (if max_lines ≠ 0 ∧ ((filteredAll lines tokens context).length : Int) > max_lines
      then pyTake max_lines (filteredAll lines tokens context)
      else filteredAll lines tokens context,
      (hit_idxs lines tokens).length)

/-- Python `sep.join(parts)` for `sep = "\n\n---\n\n"` and `sep = "\n"`. -/
def pyJoin (s : List Char) : List (List Char) → List Char
  | [] => []
  | [x] => x
  | x :: y :: xs => x ++ s ++ pyJoin s (y :: xs)

/-- The separator `"\n\n---\n\n"` between chunk-analysis blocks. -/
def chunkSep : List Char := "\n\n---\n\n".data

/-- The f-string label `f"Chunk {i+1} analysis:\n"` in front of the i-th
per-chunk result. -/
def chunkLabel (i : Nat) : List Char :=
  "Chunk ".data ++ (Nat.repr (i + 1)).data ++ " analysis:\n".data

/-- `joined` from src/app.py:
the labeled per-chunk results for `i in range(len(chunk_outputs))`,
joined with `chunkSep`. -/
def joined (outs : List (List Char)) : List Char :=
  pyJoin chunkSep ((List.range outs.length).map (fun i => chunkLabel i ++ outs.getD i []))

/-- `SYNTHESIS_PROMPT` text before the `target_services` placeholder. -/
def SYNTHESIS_PROMPT_part1 : List Char :=
  ("You are consolidating multiple chunk-level analyses of the same incident.\nCombine them into ONE coherent incident report.\n\nRequirements:\n- Merge duplicated information.\n- Resolve ordering into a single timeline per service when possible.\n- Keep evidence-based statements.\n- Clearly label hypotheses.\n- Produce a Jira-ready final summary.\n\nTARGET_SERVICES = ").data

/-- `SYNTHESIS_PROMPT` text between the two placeholders. -/
def SYNTHESIS_PROMPT_part2 : List Char := "\n\nCHUNK ANALYSES:\n".data

/-- `SYNTHESIS_PROMPT` text after the `chunk_analyses` placeholder. -/
def SYNTHESIS_PROMPT_part3 : List Char := "\n".data

/-- `SYNTHESIS_PROMPT.format(target_services=..., chunk_analyses=joined)`,
with the already-rendered `str(target_services)` passed as `targets`. -/
def synth_prompt (targets : List Char) (outs : List (List Char)) : List Char :=
  SYNTHESIS_PROMPT_part1 ++ targets ++ SYNTHESIS_PROMPT_part2
    ++ joined outs ++ SYNTHESIS_PROMPT_part3

/-- Spec-side description of the synthesis payload: the labeled blocks
`"Chunk i analysis:\n" ++ result_i` for consecutive indices starting at `k`,
with adjacent blocks separated by `chunkSep`. -/
def blocksChain (k : Nat) : List (List Char) → List Char
  | [] => []
  | [r] => chunkLabel k ++ r
  | r :: r2 :: rs => chunkLabel k ++ r ++ chunkSep ++ blocksChain (k + 1) (r2 :: rs)

/-- Terminal state of one analysis run (src/app.py after the Analyze click):
either the empty-filter halt (`st.warning` + `st.stop`) or a completed run
carrying the chunks, the per-chunk outputs and the final report. -/
inductive RunOutcome where
  | halted_empty : RunOutcome
  | completed : List (List Char) → List (List Char) → List Char → RunOutcome

/-- The post-click pipeline of src/app.py (lines 252-293):
`filtered_text = "\n".join(filtered_lines).strip()`, the empty-text guard,
chunking, the Pass 1 loop collecting `out.strip()` per chunk, and the single
synthesis call. Pass 1 prompt rendering is abstracted as `renderPass1` and
the external LLM as `call`; the second component records every prompt sent
to the external service, in order. -/
def runPipeline (filtered_lines : List (List Char)) (chunk_size : Int)
    (renderPass1 : List Char → List Char) (targets : List Char)
    (call : List Char → List Char) : RunOutcome × List (List Char) :=
  if pyStrip (pyJoin ['\n'] filtered_lines) = [] then (RunOutcome.halted_empty, [])
  else
    let chunks := chunk_text_by_chars (pyStrip (pyJoin ['\n'] filtered_lines)) chunk_size
    let chunk_outputs := (chunks.map renderPass1).map (fun p => pyStrip (call p))
    (RunOutcome.completed chunks chunk_outputs
        (pyStrip (call (synth_prompt targets chunk_outputs))),
      chunks.map renderPass1 ++ [synth_prompt targets chunk_outputs])

lemma chunksOfFuel_join (n : Nat) (hn : 0 < n) :
    ∀ (fuel : Nat) (l : List Char), l.length ≤ fuel → (chunksOfFuel n fuel l).flatten = l := by
  intro fuel
  induction fuel with
  | zero =>
    intro l hl
    cases l with
    | nil => simp [chunksOfFuel]
    | cons c cs => simp at hl
  | succ f ih =>
    intro l hl
    cases l with
    | nil => simp [chunksOfFuel]
    | cons c cs =>
      have hdrop : ((c :: cs).drop n).length ≤ f := by
        simp only [List.length_drop, List.length_cons]
        simp only [List.length_cons] at hl
        omega
      simp only [chunksOfFuel, List.flatten_cons, ih _ hdrop, List.take_append_drop]

lemma chunksOfFuel_dropLast_length (n : Nat) (hn : 0 < n) :
    ∀ (fuel : Nat) (l : List Char), l.length ≤ fuel →
      ∀ c ∈ (chunksOfFuel n fuel l).dropLast, c.length = n := by
  intro fuel
  induction fuel with
  | zero =>
    intro l hl c hc
    cases l with
    | nil => simp [chunksOfFuel] at hc
    | cons a as => simp at hl
  | succ f ih =>
    intro l hl c hc
    cases l with
    | nil => simp [chunksOfFuel] at hc
    | cons a as =>
      simp only [chunksOfFuel] at hc
      cases hrest : chunksOfFuel n f ((a :: as).drop n) with
      | nil =>
        rw [hrest] at hc
        simp at hc
      | cons r rs =>
        rw [hrest] at hc
        have hstep : ((a :: as).take n :: r :: rs).dropLast
            = (a :: as).take n :: (r :: rs).dropLast := rfl
        rw [hstep] at hc
        have hdropne : (a :: as).drop n ≠ [] := by
          intro hd
          rw [hd] at hrest
          cases f <;> simp [chunksOfFuel] at hrest
        have hnlt : n < (a :: as).length := by
          by_contra hge
          exact hdropne (List.drop_eq_nil_of_le (by omega))
        rcases List.mem_cons.mp hc with hc1 | hc2
        · subst hc1
          simp only [List.length_take]
          omega
        · have hdl : ((a :: as).drop n).length ≤ f := by
            simp only [List.length_drop, List.length_cons]
            simp only [List.length_cons] at hl
            omega
          have := ih ((a :: as).drop n) hdl c
          rw [hrest] at this
          exact this hc2

lemma mem_foldl_union (w : Nat → Finset Nat) (j : Nat) :
    ∀ (l : List Nat) (s0 : Finset Nat),
      (j ∈ l.foldl (fun s i => s ∪ w i) s0) ↔ j ∈ s0 ∨ ∃ i ∈ l, j ∈ w i := by
  intro l
  induction l with
  | nil => intro s0; simp
  | cons a as ih =>
    intro s0
    rw [List.foldl_cons, ih]
    simp [Finset.mem_union, or_assoc]

lemma mem_keepSet (lines tokens : List (List Char)) (context : Int) (j : Nat) :
    j ∈ keepSet lines tokens context ↔
      ∃ i ∈ hit_idxs lines tokens,
        max 0 ((i : Int) - context) ≤ (j : Int) ∧
          (j : Int) ≤ min ((lines.length : Int) - 1) ((i : Int) + context) := by
  unfold keepSet
  rw [mem_foldl_union]
  simp only [Finset.not_mem_empty, false_or]
  refine exists_congr fun i => and_congr_right fun _ => ?_
  rw [Finset.mem_Ico]
  constructor <;> intro h <;> constructor <;> omega

lemma mem_kept_sorted (lines tokens : List (List Char)) (context : Int) (j : Nat) :
    j ∈ kept_sorted lines tokens context ↔
      j < lines.length ∧ j ∈ keepSet lines tokens context := by
  unfold kept_sorted
  rw [List.mem_filter, List.mem_range]
  simp

lemma hit_idxs_nil (lines : List (List Char)) : hit_idxs lines [] = [] := by
  unfold hit_idxs
  apply List.filter_eq_nil_iff.mpr
  intro a _
  simp [lineHit]

lemma kept_sorted_nil (lines : List (List Char)) (context : Int) :
    kept_sorted lines [] context = [] := by
  unfold kept_sorted keepSet
  rw [hit_idxs_nil]
  apply List.filter_eq_nil_iff.mpr
  intro a _
  simp

lemma patMatchesAt_iff (p : List Char) :
    ∀ l : List Char, patMatchesAt (reEscape p) l = true ↔
      ∃ r, l.map Char.toLower = p.map Char.toLower ++ r := by
  induction p with
  | nil =>
    intro l
    simp [reEscape, patMatchesAt]
  | cons a ps ih =>
    intro l
    cases l with
    | nil =>
      simp [reEscape, patMatchesAt]
    | cons c cs =>
      simp only [reEscape, List.map_cons, patMatchesAt, atomMatches,
        Bool.and_eq_true, beq_iff_eq, List.cons_append, List.cons.injEq]
      rw [show reEscape ps = ps.map RAtom.lit from rfl] at ih
      constructor
      · rintro ⟨heq, hrest⟩
        obtain ⟨r, hr⟩ := (ih cs).mp hrest
        exact ⟨r, heq.symm, hr⟩
      · rintro ⟨r, heq, hr⟩
        exact ⟨heq.symm, (ih cs).mpr ⟨r, hr⟩⟩

lemma reSearch_iff (t l : List Char) :
    reSearch (reEscape t) l = true ↔
      ∃ p q, l.map Char.toLower = p ++ t.map Char.toLower ++ q := by
  unfold reSearch
  rw [List.any_eq_true]
  constructor
  · rintro ⟨i, hi, hm⟩
    obtain ⟨r, hr⟩ := (patMatchesAt_iff t (l.drop i)).mp hm
    refine ⟨(l.map Char.toLower).take i, r, ?_⟩
    have hdm : (l.drop i).map Char.toLower = (l.map Char.toLower).drop i :=
      List.map_drop ..
    rw [hdm] at hr
    calc l.map Char.toLower
        = (l.map Char.toLower).take i ++ (l.map Char.toLower).drop i :=
          (List.take_append_drop ..).symm
      _ = (l.map Char.toLower).take i ++ (t.map Char.toLower ++ r) := by rw [hr]
      _ = (l.map Char.toLower).take i ++ t.map Char.toLower ++ r := by
          rw [List.append_assoc]
  · rintro ⟨p, q, hpq⟩
    have hplen : p.length ≤ l.length := by
      have hlen := congrArg List.length hpq
      simp only [List.length_map, List.length_append] at hlen
      omega
    refine ⟨p.length, List.mem_range.mpr (by omega), ?_⟩
    apply (patMatchesAt_iff t (l.drop p.length)).mpr
    refine ⟨q, ?_⟩
    have hdm : (l.drop p.length).map Char.toLower = (l.map Char.toLower).drop p.length :=
      List.map_drop ..
    rw [hdm, hpq, List.append_assoc, List.drop_left]

lemma filter_map_succ (p : Nat → Bool) (l : List Nat) :
    (l.map Nat.succ).filter p = (l.filter (fun i => p (i + 1))).map Nat.succ := by
  induction l with
  | nil => rfl
  | cons a as ih =>
    simp only [List.map_cons, List.filter_cons, Nat.succ_eq_add_one, ih]
    by_cases h : p (a + 1) <;> simp [h]

lemma filter_range_map_sublist {α β : Type} (g : α → β) (d : α) :
    ∀ (l : List α) (p : Nat → Bool),
      (((List.range l.length).filter p).map (fun i => g (l.getD i d))).Sublist (l.map g) := by
  intro l
  induction l with
  | nil =>
    intro p
    simp
  | cons x xs ih =>
    intro p
    have hcomp : ((fun i => g ((x :: xs).getD i d)) ∘ Nat.succ)
        = fun i => g (xs.getD i d) := by
      funext i
      simp [List.getD_cons_succ]
    rw [List.map_cons, List.length_cons, List.range_succ_eq_map, List.filter_cons,
      filter_map_succ]
    by_cases hp : p 0
    · rw [if_pos hp, List.map_cons, List.map_map, hcomp, List.getD_cons_zero]
      exact (ih _).cons₂ (g x)
    · rw [if_neg hp, List.map_map, hcomp]
      exact (ih _).cons (g x)

lemma result_is_take (lines tokens : List (List Char)) (context max_lines : Int) :
    ∃ k, (filter_lines_with_context lines tokens context max_lines).1
      = (filteredAll lines tokens context).take k := by
  unfold filter_lines_with_context
  by_cases ht : tokens = []
  · rw [if_pos ht]
    subst ht
    exact ⟨0, by simp [filteredAll, kept_sorted_nil]⟩
  · rw [if_neg ht]
    by_cases hc : max_lines ≠ 0 ∧ ((filteredAll lines tokens context).length : Int) > max_lines
    · rw [if_pos hc]
      unfold pyTake
      by_cases hm : 0 ≤ max_lines
      · exact ⟨max_lines.toNat, by rw [if_pos hm]⟩
      · exact ⟨_, by rw [if_neg hm]⟩
    · rw [if_neg hc]
      exact ⟨(filteredAll lines tokens context).length, (List.take_length ..).symm⟩

lemma joined_eq_blocksChain :
    ∀ (outs : List (List Char)) (k : Nat),
      pyJoin chunkSep ((List.range outs.length).map
        (fun i => chunkLabel (i + k) ++ outs.getD i [])) = blocksChain k outs := by
  intro outs
  induction outs with
  | nil => intro k; rfl
  | cons o os ih =>
    intro k
    rw [List.length_cons, List.range_succ_eq_map, List.map_cons, List.map_map]
    have hhead : chunkLabel (0 + k) ++ (o :: os).getD 0 [] = chunkLabel k ++ o := by
      simp
    have htail : ((fun i => chunkLabel (i + k) ++ (o :: os).getD i []) ∘ Nat.succ)
        = fun i => chunkLabel (i + (k + 1)) ++ os.getD i [] := by
      funext i
      simp only [Function.comp_apply, List.getD_cons_succ]
      rw [show Nat.succ i + k = i + (k + 1) from by omega]
    rw [hhead, htail]
    cases os with
    | nil =>
      simp [pyJoin, blocksChain]
    | cons o2 os2 =>
      have hne : ((List.range (o2 :: os2).length).map
          (fun i => chunkLabel (i + (k + 1)) ++ (o2 :: os2).getD i [])) ≠ [] := by
        intro h
        have := congrArg List.length h
        simp at this
      cases hx : (List.range (o2 :: os2).length).map
          (fun i => chunkLabel (i + (k + 1)) ++ (o2 :: os2).getD i []) with
      | nil => exact absurd hx hne
      | cons m ms =>
        show (chunkLabel k ++ o) ++ chunkSep ++ pyJoin chunkSep (m :: ms)
          = blocksChain k (o :: o2 :: os2)
        rw [← hx, ih (k + 1)]
        show (chunkLabel k ++ o) ++ chunkSep ++ blocksChain (k + 1) (o2 :: os2)
          = (chunkLabel k ++ o ++ chunkSep) ++ blocksChain (k + 1) (o2 :: os2)
        simp [List.append_assoc]

/-- C1: for every text whose trimmed form is non-empty and every positive
chunk size, concatenating the chunks returned by `chunk_text_by_chars`
reconstructs the trimmed text exactly, and every chunk except possibly the
last has length exactly `chunk_size`. -/
theorem chunk_round_trip (text : List Char) (chunk_size : Int)
    (hT : pyStrip text ≠ []) (hcs : 0 < chunk_size) :
    (chunk_text_by_chars text chunk_size).flatten = pyStrip text ∧
      ∀ c ∈ (chunk_text_by_chars text chunk_size).dropLast, c.length = chunk_size.toNat := by
  have hn : 0 < chunk_size.toNat := by omega
  have hle : ¬ chunk_size ≤ 0 := by omega
  unfold chunk_text_by_chars
  rw [if_neg hT, if_neg hle]
  exact ⟨chunksOfFuel_join chunk_size.toNat hn (pyStrip text).length (pyStrip text) le_rfl,
    chunksOfFuel_dropLast_length chunk_size.toNat hn (pyStrip text).length (pyStrip text) le_rfl⟩

theorem chunk_round_trip_witness :
    pyStrip ['a', 'b', 'c', 'd', 'e'] ≠ [] ∧
      (chunk_text_by_chars ['a', 'b', 'c', 'd', 'e'] 2).flatten = pyStrip ['a', 'b', 'c', 'd', 'e'] :=
  ⟨by decide, (chunk_round_trip ['a', 'b', 'c', 'd', 'e'] 2 (by decide) (by decide)).1⟩

/-- C2: the kept index set is exactly the union over all hit indices `h` of
the clamped windows `[max(0, h - radius), min(len(lines) - 1, h + radius)]`,
and it is empty whenever there are no hits. -/
theorem window_correctness (lines tokens : List (List Char)) (context : Int)
    (_hr : 0 ≤ context) :
    (∀ j : Nat, j ∈ kept_sorted lines tokens context ↔
        ∃ i ∈ hit_idxs lines tokens,
          max 0 ((i : Int) - context) ≤ (j : Int) ∧
            (j : Int) ≤ min ((lines.length : Int) - 1) ((i : Int) + context)) ∧
      (hit_idxs lines tokens = [] → kept_sorted lines tokens context = []) := by
  constructor
  · intro j
    rw [mem_kept_sorted, mem_keepSet]
    constructor
    · exact fun h => h.2
    · intro h
      refine ⟨?_, h⟩
      obtain ⟨i, _, h1, h2⟩ := h
      omega
  · intro hempty
    apply List.filter_eq_nil_iff.mpr
    intro a _
    simp only [decide_eq_true_eq]
    rw [mem_keepSet, hempty]
    simp

theorem window_correctness_witness :
    kept_sorted [['a']] [['b']] 5 = [] :=
  (window_correctness [['a']] [['b']] 5 (by decide)).2 (by decide)

/-- C3: the filtered output is a subsequence of the original lines
(with trailing newlines stripped): there is a strictly increasing list of
in-range indices whose image under line lookup is exactly the returned
sequence — never reordered or duplicated. -/
theorem filtered_subsequence (lines tokens : List (List Char)) (context max_lines : Int) :
    ((filter_lines_with_context lines tokens context max_lines).1).Sublist
        (lines.map rstripNL) ∧
      ∃ is : List Nat, is.Pairwise (· < ·) ∧ (∀ i ∈ is, i < lines.length) ∧
        (filter_lines_with_context lines tokens context max_lines).1
          = is.map (fun i => rstripNL (lines.getD i [])) := by
  obtain ⟨k, hk⟩ := result_is_take lines tokens context max_lines
  have hmt : (filteredAll lines tokens context).take k
      = ((kept_sorted lines tokens context).take k).map (fun i => rstripNL (lines.getD i [])) := by
    unfold filteredAll
    rw [List.map_take]
  have hall : (filteredAll lines tokens context).Sublist (lines.map rstripNL) :=
    filter_range_map_sublist rstripNL [] lines _
  constructor
  · rw [hk]
    exact (List.take_sublist _ _).trans hall
  · refine ⟨(kept_sorted lines tokens context).take k, ?_, ?_, ?_⟩
    · exact List.Pairwise.sublist (List.take_sublist _ _)
        (List.Pairwise.sublist (List.filter_sublist _) (List.pairwise_lt_range _))
    · intro i hi
      have hmem : i ∈ kept_sorted lines tokens context := List.mem_of_mem_take hi
      exact ((mem_kept_sorted lines tokens context i).mp hmem).1
    · rw [hk, hmt]

/-- C4: with an empty token list, `filter_lines_with_context` returns
`([], 0)` for every line list, radius and truncation bound. -/
theorem empty_tokens_noop (lines : List (List Char)) (context max_lines : Int) :
    filter_lines_with_context lines [] context max_lines = ([], 0) := by
  simp [filter_lines_with_context]

/-- C5 counterexample: with `max_output_lines = 0` the keep set size (1)
exceeds the bound, yet the returned sequence has 1 entry, not 0 — Python
treats `max_lines = 0` as falsy and skips the safeguard. -/
theorem truncation_safeguard_cex :
    (0 : Int) < ((kept_sorted [['a']] [['a']] 0).length : Int) ∧
      ((filter_lines_with_context [['a']] [['a']] 0 0).1).length ≠ (0 : Int).toNat := by
  decide

/-- C5 (amended): for every positive `max_output_lines`, if the keep set
size exceeds it then the returned sequence is exactly the length-
`max_output_lines` head of the untruncated result, and the returned
hit count is always the size of the pre-expansion hit index set. -/
theorem truncation_safeguard (lines tokens : List (List Char)) (context max_lines : Int)
    (hm : 0 < max_lines)
    (hgt : max_lines < ((kept_sorted lines tokens context).length : Int)) :
    (filter_lines_with_context lines tokens context max_lines).1
        = (filteredAll lines tokens context).take max_lines.toNat ∧
      (((filter_lines_with_context lines tokens context max_lines).1).length : Int)
        = max_lines ∧
      (filter_lines_with_context lines tokens context max_lines).2
        = (hit_idxs lines tokens).length := by
  have ht : tokens ≠ [] := by
    intro h
    subst h
    rw [kept_sorted_nil] at hgt
    simp at hgt
    omega
  have hflen : (filteredAll lines tokens context).length
      = (kept_sorted lines tokens context).length := by
    unfold filteredAll
    rw [List.length_map]
  unfold filter_lines_with_context
  rw [if_neg ht]
  have hcond : max_lines ≠ 0 ∧ ((filteredAll lines tokens context).length : Int) > max_lines := by
    refine ⟨by omega, ?_⟩
    rw [hflen]
    omega
  rw [if_pos hcond]
  unfold pyTake
  rw [if_pos (le_of_lt hm)]
  refine ⟨rfl, ?_, rfl⟩
  rw [List.length_take]
  have h1 : max_lines.toNat ≤ (filteredAll lines tokens context).length := by
    rw [hflen]
    omega
  rw [min_eq_left h1]
  omega

theorem truncation_safeguard_witness :
    (filter_lines_with_context [['a'], ['a']] [['a']] 0 1).1
        = (filteredAll [['a'], ['a']] [['a']] 0).take (1 : Int).toNat ∧
      (((filter_lines_with_context [['a'], ['a']] [['a']] 0 1).1).length : Int) = 1 ∧
      (filter_lines_with_context [['a'], ['a']] [['a']] 0 1).2
        = (hit_idxs [['a'], ['a']] [['a']]).length :=
  truncation_safeguard [['a'], ['a']] [['a']] 0 1 (by decide) (by decide)

/-- C6: a non-positive chunk size disables chunking (the whole trimmed text is
returned as a single chunk), and a text that trims to empty yields no chunks
at all, for every chunk size. -/
theorem chunk_disable_empty (T : List Char) (k : Int) :
    (pyStrip T = T → T ≠ [] → chunk_text_by_chars T 0 = [T]) ∧
      (pyStrip T = [] → chunk_text_by_chars T k = []) := by
  constructor
  · intro hstrip hne
    unfold chunk_text_by_chars
    rw [hstrip, if_neg hne, if_pos (by omega)]
  · intro hempty
    unfold chunk_text_by_chars
    rw [if_pos hempty]

theorem chunk_disable_empty_witness :
    chunk_text_by_chars ['a'] 0 = [['a']] ∧ chunk_text_by_chars [] 5 = [] :=
  ⟨(chunk_disable_empty ['a'] 5).1 (by decide) (by decide),
    (chunk_disable_empty [] 5).2 (by decide)⟩

/-- C7: a line is counted as a hit exactly when some token occurs as a
case-insensitive literal substring of it; the escaped patterns match their
characters only literally. -/
theorem hit_iff_ci_substring (lines tokens : List (List Char)) (_hne : tokens ≠ [])
    (i : Nat) (hi : i < lines.length) :
    i ∈ hit_idxs lines tokens ↔
      ∃ t ∈ tokens, ∃ p q,
        (lines.getD i []).map Char.toLower = p ++ t.map Char.toLower ++ q := by
  unfold hit_idxs
  rw [List.mem_filter, List.mem_range]
  simp only [hi, true_and]
  unfold lineHit
  rw [List.any_eq_true]
  exact exists_congr fun t => and_congr_right fun _ => reSearch_iff t _

theorem hit_iff_ci_substring_witness :
    0 ∈ hit_idxs [['A', 'b']] [['a']] :=
  (hit_iff_ci_substring [['A', 'b']] [['a']] (by decide) 0 (by decide)).mpr
    ⟨['a'], by decide, [], ['b'], by decide⟩

/-- C8: the synthesis prompt contains, contiguously and in order, the block
`"Chunk i analysis:\n" ++ result_i` for every `i` (1-based in the label),
with each adjacent pair separated by the same separator `"\n\n---\n\n"`. -/
theorem synthesis_blocks_ordered (targets : List Char) (outs : List (List Char)) :
    ∃ P Q, synth_prompt targets outs = P ++ blocksChain 0 outs ++ Q := by
  refine ⟨SYNTHESIS_PROMPT_part1 ++ targets ++ SYNTHESIS_PROMPT_part2,
    SYNTHESIS_PROMPT_part3, ?_⟩
  unfold synth_prompt joined
  have h := joined_eq_blocksChain outs 0
  simp only [Nat.add_zero] at h
  rw [h]

/-- C9: when the joined filtered text trims to empty, the run halts in the
operator-notice state before any chunking: no chunk is produced and no
prompt (neither Pass 1 nor synthesis) is ever sent to the external
service. -/
theorem empty_filter_halts (filtered_lines : List (List Char)) (chunk_size : Int)
    (renderPass1 : List Char → List Char) (targets : List Char)
    (call : List Char → List Char)
    (h : pyStrip (pyJoin ['\n'] filtered_lines) = []) :
    runPipeline filtered_lines chunk_size renderPass1 targets call
      = (RunOutcome.halted_empty, []) := by
  unfold runPipeline
  rw [if_pos h]

theorem empty_filter_halts_witness :
    runPipeline [] 5 id ['x'] id = (RunOutcome.halted_empty, []) :=
  empty_filter_halts [] 5 id ['x'] id (by decide)

/-- C10: `max_lines = 0` is falsy in Python, so the safeguard is skipped
entirely and the full untruncated kept sequence is returned, with the hit
count unchanged. -/
theorem max_zero_unlimited (lines tokens : List (List Char)) (context : Int) :
    (filter_lines_with_context lines tokens context 0).1 = filteredAll lines tokens context ∧
      (filter_lines_with_context lines tokens context 0).2 = (hit_idxs lines tokens).length ∧
      ((filter_lines_with_context lines tokens context 0).1).length
        = (kept_sorted lines tokens context).length := by
  by_cases ht : tokens = []
  · subst ht
    refine ⟨?_, ?_, ?_⟩ <;>
      simp [filter_lines_with_context, filteredAll, kept_sorted_nil, hit_idxs_nil]
  · unfold filter_lines_with_context
    rw [if_neg ht]
    have hcond : ¬ ((0 : Int) ≠ 0 ∧ ((filteredAll lines tokens context).length : Int) > 0) := by
      simp
    rw [if_neg hcond]
    refine ⟨rfl, rfl, ?_⟩
    unfold filteredAll
    rw [List.length_map]

/-- Sanity check mirroring Scenario D of the spec: splitting "abcdefgh" into
3-character chunks. -/
theorem scenario_chunking :
    chunk_text_by_chars ['a', 'b', 'c', 'd', 'e', 'f', 'g', 'h'] 3
      = [['a', 'b', 'c'], ['d', 'e', 'f'], ['g', 'h']] := by
  decide

end App
